import Mathlib

/-!
# Verification of the Long Plan planner core

Shallow embedding of the planner's data model and operations
(`src/models.py`, `src/plan_generator.py`) and proofs of the spec's claims.

Modelling conventions:
* Python's unbounded `int` is `Int` (orders) or `Nat` (counts, weekly hours —
  all claims restrict weekly hours to [1,40], so nonnegative).
* Python's stable `sorted(..., key=...)` is modelled by a stable insertion
  sort over (original index, key) pairs; a stable sort's output is uniquely
  determined by the key sequence, so any stable sort is a faithful model.
* Python exceptions are modelled by `Option`: `none` is a raised exception.
* `uuid.uuid4()` (fresh random identifiers) is modelled by a deterministic
  fresh-name supply (`"phase-" ++ toString i` etc.); the only property any
  claim uses is freshness/distinctness of the generated identifiers.
-/

namespace Planner

/-- `ItemStatus` enum from `src/models.py` (PENDING/COMPLETED/SKIPPED). -/
inductive ItemStatus where
  | pending
  | completed
  | skipped
deriving DecidableEq, Repr

/-- String value of an `ItemStatus`, as in the Python enum. -/
def ItemStatus.value : ItemStatus → String
  | .pending => "pending"
  | .completed => "completed"
  | .skipped => "skipped"

/-- `ItemStatus(s)` in Python: parse the enum from its value, raising
(= `none`) on anything else. -/
def ItemStatus.fromValue : String → Option ItemStatus
  | "pending" => some .pending
  | "completed" => some .completed
  | "skipped" => some .skipped
  | _ => none

/-- `Duration` enum from `src/models.py`. -/
inductive Duration where
  | threeMonths
  | sixMonths
  | oneYear
deriving DecidableEq, Repr

/-- String value of a `Duration` ("3months"/"6months"/"1year"). -/
def Duration.value : Duration → String
  | .threeMonths => "3months"
  | .sixMonths => "6months"
  | .oneYear => "1year"

/-- `Duration(s)` in Python: parse from the value string, raising on others. -/
def Duration.fromValue : String → Option Duration
  | "3months" => some .threeMonths
  | "6months" => some .sixMonths
  | "1year" => some .oneYear
  | _ => none

/-- `Duration.weeks` property: 12 / 26 / 52. -/
def Duration.weeks : Duration → Nat
  | .threeMonths => 12
  | .sixMonths => 26
  | .oneYear => 52

/-- `Item` dataclass from `src/models.py`. -/
structure Item where
  id : String
  name : String
  phase_id : String
  order : Int
  status : ItemStatus
deriving DecidableEq, Repr

/-- `Phase` dataclass from `src/models.py`. -/
structure Phase where
  id : String
  name : String
  order : Int
  items : List Item
deriving DecidableEq, Repr

/-- `Plan` dataclass from `src/models.py`. -/
structure Plan where
  id : String
  goal : String
  duration : Duration
  weekly_hours : Nat
  phases : List Phase
deriving DecidableEq, Repr

/-! ## Stable sorting by `order`, as Python's `sorted(..., key=...)`

`sorted(xs, key=...)` returns the elements in ascending key order, with
equal-key elements in their original relative order (stable).  We compute the
resulting *index* order: pair every position with its key, insertion-sort the
pairs stably, and project the positions back out. -/

/-- Pair each element of `l` with its position, starting at `n`
(Python `enumerate`). -/
def withIdxFrom (n : Nat) : List α → List (Nat × α)
  | [] => []
  | a :: as => (n, a) :: withIdxFrom (n + 1) as

/-- Pair each element with its position from 0. -/
def withIdx (l : List α) : List (Nat × α) := withIdxFrom 0 l

/-- Stable insertion of an (index, key) pair: `x` is placed before the first
element whose key is `≥ x`'s key, so a (later-inserted, originally earlier)
element precedes equal keys. -/
def insIdx (x : Nat × Int) : List (Nat × Int) → List (Nat × Int)
  | [] => [x]
  | y :: ys => if x.2 ≤ y.2 then x :: y :: ys else y :: insIdx x ys

/-- Stable insertion sort on (index, key) pairs, ascending by key. -/
def isortIdx : List (Nat × Int) → List (Nat × Int)
  | [] => []
  | x :: xs => insIdx x (isortIdx xs)

/-- The positions of `keys` in ascending stable-sorted key order: scanning
`l` sorted by key `k` visits exactly the positions `sortedIdx (l.map k)` of
`l`, in that order (Python's stable `sorted`). -/
def sortedIdx (keys : List Int) : List Nat :=
  (isortIdx (withIdx keys)).map Prod.fst

/-! ## Progression engine (`Plan` methods in `src/models.py`) -/

/-- The phase orders of a plan, in list order. -/
def phaseKeys (p : Plan) : List Int := p.phases.map Phase.order

/-- The item orders of a phase, in list order. -/
def itemKeys (ph : Phase) : List Int := ph.items.map Item.order

/-- A slot `(pi, ii)` addresses item `ii` of phase `pi` (positions in the
plan's lists).  `slotBlock p pi` lists the slots of phase `pi` in the order
`get_current_item` scans them: items stably sorted by `order`. -/
def slotBlock (p : Plan) (pi : Nat) : List (Nat × Nat) :=
  match p.phases[pi]? with
  | some ph => (sortedIdx (itemKeys ph)).map fun ii => (pi, ii)
  | none => []

/-- Every slot of `p` in exactly the order `get_current_item` scans items:
phases stably sorted by `order`, then items stably sorted by `order` within
each phase. -/
def slots (p : Plan) : List (Nat × Nat) :=
  (sortedIdx (phaseKeys p)).flatMap (slotBlock p)

/-- The item stored at a slot, if the slot is in range. -/
def itemAt (p : Plan) (s : Nat × Nat) : Option Item :=
  (p.phases[s.1]?).bind fun ph => ph.items[s.2]?

/-- The status of the item at a slot. -/
def statusAt (p : Plan) (s : Nat × Nat) : Option ItemStatus :=
  (itemAt p s).map Item.status

/-- Whether the slot holds a pending item. -/
def pendingAt (p : Plan) (s : Nat × Nat) : Bool :=
  statusAt p s == some .pending

/-- The slot of the current item: the first pending item in scan order.
`Plan.get_current_item` returns the (mutable) item object at this slot. -/
def getCurrentSlot (p : Plan) : Option (Nat × Nat) :=
  (slots p).find? (pendingAt p)

/-- `Plan.get_current_item`: the first pending item across all phases,
scanning phases in ascending `order` and items in ascending `order`. -/
def get_current_item (p : Plan) : Option Item :=
  (getCurrentSlot p).bind (itemAt p)

/-- `Plan.get_current_phase`: the first phase whose `id` equals the current
item's `phase_id`, or `none` when there is no current item or no match. -/
def get_current_phase (p : Plan) : Option Phase :=
  (get_current_item p).bind fun it => p.phases.find? fun ph => ph.id == it.phase_id

/-- `Plan.get_progress`: `(completed_count, total_count)` over all items. -/
def get_progress (p : Plan) : Nat × Nat :=
  p.phases.foldl
    (fun acc ph => ph.items.foldl
      (fun a it => ((if it.status = .completed then a.1 + 1 else a.1), a.2 + 1)) acc)
    (0, 0)

/-- Replace the element at position `i` by `f` of it (identity out of range);
models in-place mutation of the object at that position. -/
def modifyIdx (f : α → α) : Nat → List α → List α
  | _, [] => []
  | 0, a :: as => f a :: as
  | n + 1, a :: as => a :: modifyIdx f n as

/-- Apply `f` to the item at slot `s` (models Python's in-place mutation of
the item object `get_current_item` returned). -/
def modifyItem (p : Plan) (s : Nat × Nat) (f : Item → Item) : Plan :=
  { p with
    phases := modifyIdx (fun ph => { ph with items := modifyIdx f s.2 ph.items }) s.1 p.phases }

/-- `Plan.complete_current`: mark the current item completed; report success.
Python mutates the plan and returns a `bool`; we return the pair. -/
def complete_current (p : Plan) : Bool × Plan :=
  match getCurrentSlot p with
  | some s => (true, modifyItem p s fun it => { it with status := .completed })
  | none => (false, p)

/-- Python's `max` over a nonempty list of ints (`none` = `ValueError`
on an empty sequence). -/
def listMax? : List Int → Option Int
  | [] => none
  | k :: ks => some (ks.foldl max k)

/-- `Plan.skip_current`: move the current item to the end of its phase by
setting its `order` to one past the maximum order of the first phase whose
`id` matches the item's `phase_id`.  Returns `none` when Python would raise
(`max()` over an empty matched phase), `some (false, p)` when no current item
exists or no phase matches (the `for` loop falls through), and
`some (true, _)` on success. -/
def skip_current (p : Plan) : Option (Bool × Plan) :=
  match getCurrentSlot p with
  | none => some (false, p)
  | some s =>
    match itemAt p s with
    | none => some (false, p)
    | some cur =>
      match p.phases.find? (fun ph => ph.id == cur.phase_id) with
      | none => some (false, p)
      | some ph =>
        match listMax? (itemKeys ph) with
        | none => none
        | some m => some (true, modifyItem p s fun it => { it with order := m + 1 })

/-- The plan after `skip_current`, unchanged when it fails or raises. -/
def skipPlan (p : Plan) : Plan :=
  match skip_current p with
  | some r => r.2
  | none => p

/-- Total number of items in a plan. -/
def totalItems (p : Plan) : Nat :=
  (p.phases.map fun ph => ph.items.length).sum

/-- Repeated `complete_current` (discarding the success flags). -/
def completeN : Nat → Plan → Plan
  | 0, p => p
  | n + 1, p => completeN n (complete_current p).2

/-! ## Well-formedness

The spec's data model (§3) makes `phase_id` the *owning* phase's identity and
phase identities unique (they are produced by a fresh-`uuid4` supply).
Arbitrary `Plan` values (e.g. loaded via `from_dict`, which validates
nothing) need not satisfy this. -/

/-- Every item's `phase_id` is the id of the phase whose `items` list holds it. -/
def ownsItems (p : Plan) : Prop :=
  ∀ ph ∈ p.phases, ∀ it ∈ ph.items, it.phase_id = ph.id

instance (p : Plan) : Decidable (ownsItems p) := by
  unfold ownsItems; infer_instance

/-- Well-formed plan: ownership back-references plus distinct phase ids. -/
def WF (p : Plan) : Prop :=
  ownsItems p ∧ (p.phases.map Phase.id).Nodup

instance (p : Plan) : Decidable (WF p) := by
  unfold WF; infer_instance

/-! ## Scan-order helpers used to state the claims -/

/-- The slots strictly after the (unique) occurrence of `s` in scan order. -/
def slotsAfter (p : Plan) (s : Nat × Nat) : List (Nat × Nat) :=
  ((slots p).dropWhile fun t => t != s).tail

/-- The first pending slot strictly after `s` in scan order. -/
def nextPendingSlot (p : Plan) (s : Nat × Nat) : Option (Nat × Nat) :=
  (slotsAfter p s).find? (pendingAt p)

/-- The next pending item of `p` strictly after slot `s` in ascending
(phase order, item order) scan order — "the next item", or `none`. -/
def nextPendingItem (p : Plan) (s : Nat × Nat) : Option Item :=
  (nextPendingSlot p s).bind (itemAt p)

/-! ## Plan generator (`src/plan_generator.py`)

Phase/item templates and keyword lists transcribed verbatim. -/

/-- `PlanGenerator.DEFAULT_PHASES`. -/
def DEFAULT_PHASES : List (String × List String) :=
  [("준비", ["목표 구체화하기", "필요한 자료 수집하기", "환경 세팅하기", "기초 개념 파악하기"]),
   ("기초", ["핵심 개념 학습하기", "기본 스킬 익히기", "간단한 예제 따라하기", "기초 연습하기"]),
   ("심화", ["심화 내용 학습하기", "실전 프로젝트 시작하기", "어려운 부분 집중 학습하기", "피드백 반영하기"]),
   ("실전", ["실제 적용하기", "완성도 높이기", "부족한 부분 보완하기", "결과물 정리하기"]),
   ("마무리", ["전체 복습하기", "결과 정리하기", "다음 단계 계획하기"])]

/-- `PlanGenerator.STUDY_PHASES`. -/
def STUDY_PHASES : List (String × List String) :=
  [("준비", ["학습 목표 정리하기", "교재/자료 선정하기", "학습 환경 세팅하기"]),
   ("기초 학습", ["기초 이론 공부하기", "핵심 개념 정리하기", "기본 문제 풀기", "노트 정리하기"]),
   ("심화 학습", ["심화 이론 공부하기", "응용 문제 풀기", "모르는 부분 집중 학습하기"]),
   ("실전 연습", ["실전 문제 풀기", "시간 제한 연습하기", "오답 분석하기", "취약점 보완하기"]),
   ("마무리", ["전체 복습하기", "최종 점검하기", "결과 정리하기"])]

/-- `PlanGenerator.PROJECT_PHASES`. -/
def PROJECT_PHASES : List (String × List String) :=
  [("기획", ["프로젝트 범위 정의하기", "요구사항 정리하기", "구조 설계하기"]),
   ("준비", ["개발 환경 세팅하기", "필요한 기술 학습하기", "프로토타입 만들기"]),
   ("개발", ["핵심 기능 구현하기", "세부 기능 구현하기", "테스트하기", "버그 수정하기"]),
   ("완성", ["UI/UX 다듬기", "문서화하기", "최종 테스트하기"]),
   ("배포", ["배포 준비하기", "배포하기", "피드백 수집하기"])]

/-- `PlanGenerator.SKILL_PHASES`. -/
def SKILL_PHASES : List (String × List String) :=
  [("탐색", ["스킬 분석하기", "학습 자료 찾기", "목표 수준 정하기"]),
   ("기초", ["기초 동작 익히기", "기본 패턴 연습하기", "매일 짧게 연습하기"]),
   ("발전", ["중급 기술 배우기", "다양한 상황 연습하기", "피드백 받기"]),
   ("숙달", ["고급 기술 배우기", "실전 적용하기", "꾸준히 유지하기"])]

/-- `PlanGenerator.HEALTH_PHASES`. -/
def HEALTH_PHASES : List (String × List String) :=
  [("준비", ["현재 상태 점검하기", "목표 설정하기", "계획 세우기"]),
   ("적응", ["가볍게 시작하기", "루틴 만들기", "몸 적응시키기"]),
   ("강화", ["강도 높이기", "새로운 도전하기", "기록 측정하기"]),
   ("유지", ["루틴 유지하기", "컨디션 관리하기", "목표 달성 확인하기"])]

/-- The `"study"` keyword list from `PlanGenerator.__init__`. -/
def studyKeywords : List String := ["공부", "학습", "시험", "자격증", "언어", "영어", "수학", "코딩"]

/-- The `"project"` keyword list from `PlanGenerator.__init__`. -/
def projectKeywords : List String := ["프로젝트", "개발", "만들기", "앱", "웹", "사이트", "서비스"]

/-- The `"skill"` keyword list from `PlanGenerator.__init__`. -/
def skillKeywords : List String := ["스킬", "기술", "악기", "그림", "운동", "요리", "피아노", "기타"]

/-- The `"health"` keyword list from `PlanGenerator.__init__`. -/
def healthKeywords : List String := ["운동", "다이어트", "건강", "체력", "근육", "달리기", "헬스"]

/-- `self.keywords` from `PlanGenerator.__init__`, in the dict's insertion
order (Python dicts iterate in insertion order): study, project, skill,
health. -/
def keywordTable : List (String × List String) :=
  [("study", studyKeywords), ("project", projectKeywords),
   ("skill", skillKeywords), ("health", healthKeywords)]

/-- Is `needle` a prefix of `hay`? (character lists) -/
def isPrefixChars : List Char → List Char → Bool
  | [], _ => true
  | _ :: _, [] => false
  | c :: cs, d :: ds => c == d && isPrefixChars cs ds

/-- Python's `needle in hay`: contiguous-substring containment. -/
def isInfixChars (needle : List Char) : List Char → Bool
  | [] => isPrefixChars needle []
  | c :: rest => isPrefixChars needle (c :: rest) || isInfixChars needle rest

/-- `goal.lower()` as a character list.  `Char.toLower` lowers ASCII only
while Python's `str.lower` is full Unicode, but every keyword consists of
caseless Korean characters, so keyword containment is unaffected. -/
def lowerChars (s : String) : List Char := s.toList.map Char.toLower

/-- Does any keyword of `kws` occur in the lowered goal? (inner loop of
`_detect_category`) -/
def hasKeyword (goal : String) (kws : List String) : Bool :=
  kws.any fun kw => isInfixChars kw.toList (lowerChars goal)

/-- `PlanGenerator._detect_category`: first category of `keywordTable` (in
order study, project, skill, health) with a keyword occurring as a substring
of the case-folded goal; `"default"` when none matches. -/
def detectCategory (goal : String) : String :=
  match keywordTable.find? (fun ck => hasKeyword goal ck.2) with
  | some ck => ck.1
  | none => "default"

/-- `PlanGenerator._get_phase_template`: dict lookup with `DEFAULT_PHASES`
as the fallback. -/
def getPhaseTemplate (c : String) : List (String × List String) :=
  if c = "study" then STUDY_PHASES
  else if c = "project" then PROJECT_PHASES
  else if c = "skill" then SKILL_PHASES
  else if c = "health" then HEALTH_PHASES
  else DEFAULT_PHASES

/-- `target_items = max(10, total_hours // 3)` with
`total_hours = duration.weeks * weekly_hours` and `hours_per_item = 3`. -/
def targetItemCount (d : Duration) (wh : Nat) : Nat :=
  max 10 (d.weeks * wh / 3)

/-- `current_total = sum(len(items) for _, items in phases)`. -/
def templateItemCount (phases : List (String × List String)) : Nat :=
  (phases.map fun pt => pt.2.length).sum

/-- `PlanGenerator._adjust_items_for_duration`.  The float comparison
`multiplier > 1.5` (with `multiplier = target_items / current_total`) is
written as the exact integer test `3 * current < 2 * target`: for the
positive `current` this is called with, the two are equivalent (the nearest
rational `k/current` to 3/2 is at distance ≥ 1/(2·current), far above a
double's rounding error).  The slice bound `int(len(items) * (multiplier -
1))` is the rational floor `len * (target - current) / current` (Nat
division).  Python would raise `ZeroDivisionError` for an empty template;
every template in this program is nonempty, and no claim's hypotheses admit
`current = 0`. -/
def adjustItems (phases : List (String × List String)) (d : Duration) (wh : Nat) :
    List (String × List String) :=
  let targetItems := targetItemCount d wh
  let currentTotal := templateItemCount phases
  if currentTotal < targetItems then
    phases.map fun pt =>
      if 3 * currentTotal < 2 * targetItems then
        (pt.1, pt.2 ++ (pt.2.take (pt.2.length * (targetItems - currentTotal) / currentTotal)).map
          fun item => item ++ " (심화)")
      else (pt.1, pt.2)
  else phases

/-- Instantiating phases/items from the adjusted template (the loops at the
end of `PlanGenerator.generate`).  `uuid4` identities are modelled by the
deterministic fresh names `"phase-<i>"` / `"item-<i>-<j>"`. -/
def assemble (tpl : List (String × List String)) : List Phase :=
  (withIdx tpl).map fun pr =>
    { id := "phase-" ++ toString pr.1
      name := pr.2.1
      order := (pr.1 : Int)
      items := (withIdx pr.2.2).map fun ir =>
        { id := "item-" ++ toString pr.1 ++ "-" ++ toString ir.1
          name := ir.2
          phase_id := "phase-" ++ toString pr.1
          order := (ir.1 : Int)
          status := .pending } }

/-- `PlanGenerator.generate`. -/
def generate (goal : String) (d : Duration) (wh : Nat) : Plan :=
  { id := "plan-0"
    goal := goal
    duration := d
    weekly_hours := wh
    phases := assemble (adjustItems (getPhaseTemplate (detectCategory goal)) d wh) }

/-! ## Serialization (`to_dict` / `from_dict`) -/

/-- The dict produced by `Item.to_dict` (all five keys always present). -/
structure ItemDict where
  id : String
  name : String
  phase_id : String
  order : Int
  status : String
deriving DecidableEq, Repr

/-- The dict produced by `Phase.to_dict`. -/
structure PhaseDict where
  id : String
  name : String
  order : Int
  items : List ItemDict
deriving DecidableEq, Repr

/-- The dict produced by `Plan.to_dict`. -/
structure PlanDict where
  id : String
  goal : String
  duration : String
  weekly_hours : Nat
  phases : List PhaseDict
deriving DecidableEq, Repr

/-- A Python list comprehension `[f(x) for x in l]` where `f` may raise:
the first exception propagates. -/
def mapOpt (f : α → Option β) : List α → Option (List β)
  | [] => some []
  | a :: as =>
    match f a, mapOpt f as with
    | some b, some bs => some (b :: bs)
    | _, _ => none

/-- `Item.to_dict`. -/
def Item.to_dict (it : Item) : ItemDict :=
  { id := it.id, name := it.name, phase_id := it.phase_id,
    order := it.order, status := it.status.value }

/-- `Item.from_dict` (raises, i.e. `none`, on an invalid status value). -/
def Item.from_dict (d : ItemDict) : Option Item :=
  (ItemStatus.fromValue d.status).map fun st =>
    { id := d.id, name := d.name, phase_id := d.phase_id, order := d.order, status := st }

/-- `Phase.to_dict`. -/
def Phase.to_dict (ph : Phase) : PhaseDict :=
  { id := ph.id, name := ph.name, order := ph.order, items := ph.items.map Item.to_dict }

/-- `Phase.from_dict`. -/
def Phase.from_dict (d : PhaseDict) : Option Phase :=
  (mapOpt Item.from_dict d.items).map fun its =>
    { id := d.id, name := d.name, order := d.order, items := its }

/-- `Plan.to_dict`. -/
def Plan.to_dict (p : Plan) : PlanDict :=
  { id := p.id, goal := p.goal, duration := p.duration.value,
    weekly_hours := p.weekly_hours, phases := p.phases.map Phase.to_dict }

/-- `Plan.from_dict` (raises on an invalid duration or item status). -/
def Plan.from_dict (d : PlanDict) : Option Plan :=
  (Duration.fromValue d.duration).bind fun dur =>
    (mapOpt Phase.from_dict d.phases).map fun phs =>
      { id := d.id, goal := d.goal, duration := dur,
        weekly_hours := d.weekly_hours, phases := phs }

/-! ## Concrete plans used in counterexamples and witnesses -/

/-- Two pending items in one phase; used to exhibit that a second skip
reorders past an earlier-skipped item. -/
def c1Plan : Plan :=
  { id := "plan", goal := "goal", duration := .threeMonths, weekly_hours := 5,
    phases :=
      [{ id := "P", name := "phase", order := 0,
         items :=
           [{ id := "A", name := "task A", phase_id := "P", order := 0, status := .pending },
            { id := "B", name := "task B", phase_id := "P", order := 1, status := .pending }] }] }

/-- `c1Plan` after skipping its current item (A). -/
def c1Plan1 : Plan := ((skip_current c1Plan).getD (false, c1Plan)).2

/-- `c1Plan1` after skipping its current item (B). -/
def c1Plan2 : Plan := ((skip_current c1Plan1).getD (false, c1Plan1)).2

/-- A plan with a dangling `phase_id`: the only item references a phase id
that no phase has.  Constructible directly and reachable through
`Plan.from_dict`, which validates nothing. -/
def danglingPlan : Plan :=
  { id := "p", goal := "g", duration := .threeMonths, weekly_hours := 1,
    phases :=
      [{ id := "P1", name := "ph", order := 0,
         items :=
           [{ id := "I", name := "t", phase_id := "NOPE", order := 0, status := .pending }] }] }

/-- A plan whose current item references a *different*, empty phase:
`skip_current` reaches `max()` over an empty sequence and raises. -/
def raisingPlan : Plan :=
  { id := "p", goal := "g", duration := .threeMonths, weekly_hours := 1,
    phases :=
      [{ id := "P1", name := "a", order := 0,
         items := [{ id := "I", name := "t", phase_id := "P2", order := 0, status := .pending }] },
       { id := "P2", name := "b", order := 1, items := [] }] }

/-- A small well-formed plan: three pending items in phase P1, one in P2. -/
def wPlan : Plan :=
  { id := "w", goal := "g", duration := .threeMonths, weekly_hours := 2,
    phases :=
      [{ id := "P1", name := "one", order := 0,
         items := [{ id := "A", name := "a", phase_id := "P1", order := 0, status := .pending },
                   { id := "B", name := "b", phase_id := "P1", order := 1, status := .pending },
                   { id := "C", name := "c", phase_id := "P1", order := 2, status := .pending }] },
       { id := "P2", name := "two", order := 1,
         items := [{ id := "D", name := "d", phase_id := "P2", order := 0, status := .pending }] }] }

/-- `wPlan` after skipping its current item (A). -/
def wPlan1 : Plan := ((skip_current wPlan).getD (false, wPlan)).2

/-- A plan whose first-slot item is already completed. -/
def donePlan : Plan :=
  { id := "d", goal := "g", duration := .sixMonths, weekly_hours := 3,
    phases :=
      [{ id := "Q1", name := "q", order := 0,
         items := [{ id := "X", name := "x", phase_id := "Q1", order := 0, status := .completed },
                   { id := "Y", name := "y", phase_id := "Q1", order := 1, status := .pending }] }] }

/-! ## List utility lemmas -/

theorem modifyIdx_length (f : α → α) (i : Nat) (l : List α) :
    (modifyIdx f i l).length = l.length := by
  induction l generalizing i with
  | nil => cases i <;> rfl
  | cons a as ih => cases i with
    | zero => simp [modifyIdx]
    | succ i => simp [modifyIdx, ih]

theorem getElem?_modifyIdx (f : α → α) (i j : Nat) (l : List α) :
    (modifyIdx f i l)[j]? = if j = i then (l[j]?).map f else l[j]? := by
  induction l generalizing i j with
  | nil => cases i <;> simp [modifyIdx]
  | cons a as ih =>
    cases i with
    | zero => cases j with
      | zero => simp [modifyIdx]
      | succ j => simp [modifyIdx]
    | succ i => cases j with
      | zero => simp [modifyIdx]
      | succ j =>
        simp only [modifyIdx, List.getElem?_cons_succ]
        rw [ih i j]
        by_cases hji : j = i <;> simp [hji]

theorem map_modifyIdx (f : α → α) (g : α → β) (h : ∀ a, g (f a) = g a) (i : Nat) (l : List α) :
    (modifyIdx f i l).map g = l.map g := by
  induction l generalizing i with
  | nil => cases i <;> rfl
  | cons a as ih => cases i with
    | zero => simp [modifyIdx, h]
    | succ i => simp [modifyIdx, ih]

theorem withIdxFrom_getElem? (n : Nat) (l : List α) (j : Nat) :
    (withIdxFrom n l)[j]? = (l[j]?).map fun a => (n + j, a) := by
  induction l generalizing n j with
  | nil => simp [withIdxFrom]
  | cons a as ih =>
    cases j with
    | zero => simp [withIdxFrom]
    | succ j =>
      simp only [withIdxFrom, List.getElem?_cons_succ]
      rw [ih (n + 1) j]
      have : n + 1 + j = n + (j + 1) := by omega
      rw [this]

theorem getElem?_of_mem_withIdxFrom {l : List α} {n i : Nat} {a : α}
    (h : (i, a) ∈ withIdxFrom n l) : n ≤ i ∧ l[i - n]? = some a := by
  induction l generalizing n with
  | nil => simp [withIdxFrom] at h
  | cons b bs ih =>
    simp only [withIdxFrom, List.mem_cons] at h
    rcases h with h | h
    · injection h with h1 h2
      subst h1
      subst h2
      simp
    · obtain ⟨h1, h2⟩ := ih h
      refine ⟨by omega, ?_⟩
      have : i - n = (i - (n + 1)) + 1 := by omega
      rw [this]
      simpa using h2

theorem mem_withIdxFrom_of_getElem? {l : List α} (n j : Nat) {a : α} (h : l[j]? = some a) :
    (n + j, a) ∈ withIdxFrom n l := by
  induction l generalizing n j with
  | nil => simp at h
  | cons b bs ih =>
    cases j with
    | zero => simp_all [withIdxFrom]
    | succ j =>
      simp only [List.getElem?_cons_succ] at h
      have := ih (n + 1) j h
      simp only [withIdxFrom, List.mem_cons]
      right
      have harith : n + 1 + j = n + (j + 1) := by omega
      rwa [harith] at this

theorem fst_mem_withIdxFrom_ge {l : List α} {n i : Nat}
    (h : i ∈ (withIdxFrom n l).map Prod.fst) : n ≤ i := by
  obtain ⟨⟨i', a⟩, hmem, rfl⟩ := List.mem_map.mp h
  exact (getElem?_of_mem_withIdxFrom hmem).1

theorem nodup_map_fst_withIdxFrom (n : Nat) (l : List α) :
    ((withIdxFrom n l).map Prod.fst).Nodup := by
  induction l generalizing n with
  | nil => simp [withIdxFrom]
  | cons a as ih =>
    simp only [withIdxFrom, List.map_cons, List.nodup_cons]
    exact ⟨fun h => by have := fst_mem_withIdxFrom_ge h; omega, ih (n + 1)⟩

theorem insIdx_perm (x : Nat × Int) (l : List (Nat × Int)) :
    List.Perm (insIdx x l) (x :: l) := by
  induction l with
  | nil => simp [insIdx]
  | cons y ys ih =>
    by_cases h : x.2 ≤ y.2
    · simp [insIdx, h]
    · simp only [insIdx, if_neg h]
      exact (ih.cons y).trans (List.Perm.swap x y ys)

theorem isortIdx_perm (l : List (Nat × Int)) : List.Perm (isortIdx l) l := by
  induction l with
  | nil => simp [isortIdx]
  | cons x xs ih => exact (insIdx_perm x (isortIdx xs)).trans (ih.cons x)

theorem mem_insIdx {z x : Nat × Int} {l : List (Nat × Int)} :
    z ∈ insIdx x l ↔ z = x ∨ z ∈ l := by
  rw [(insIdx_perm x l).mem_iff, List.mem_cons]

theorem insIdx_pairwise {x : Nat × Int} {l : List (Nat × Int)}
    (h : List.Pairwise (fun a b => a.2 ≤ b.2) l) :
    List.Pairwise (fun a b => a.2 ≤ b.2) (insIdx x l) := by
  induction l with
  | nil => simp [insIdx]
  | cons y ys ih =>
    rcases List.pairwise_cons.mp h with ⟨hy, hys⟩
    by_cases hle : x.2 ≤ y.2
    · simp only [insIdx, if_pos hle]
      exact List.pairwise_cons.mpr ⟨fun z hz => by
        rcases List.mem_cons.mp hz with rfl | hz
        · exact hle
        · exact le_trans hle (hy z hz), h⟩
    · simp only [insIdx, if_neg hle]
      refine List.pairwise_cons.mpr ⟨fun z hz => ?_, ih hys⟩
      rcases mem_insIdx.mp hz with rfl | hz
      · exact le_of_not_le hle
      · exact hy z hz

theorem isortIdx_pairwise (l : List (Nat × Int)) :
    List.Pairwise (fun a b => a.2 ≤ b.2) (isortIdx l) := by
  induction l with
  | nil => simp [isortIdx]
  | cons x xs ih => exact insIdx_pairwise ih

theorem mem_sortedIdx {keys : List Int} {i : Nat} :
    i ∈ sortedIdx keys ↔ i < keys.length := by
  unfold sortedIdx
  rw [((isortIdx_perm (withIdx keys)).map Prod.fst).mem_iff]
  constructor
  · intro h
    obtain ⟨⟨i', a⟩, hmem, rfl⟩ := List.mem_map.mp h
    have := (getElem?_of_mem_withIdxFrom (l := keys) (n := 0) hmem).2
    simp only [Nat.sub_zero] at this
    exact (List.getElem?_eq_some_iff.mp this).1
  · intro h
    have ha : keys[i]? = some keys[i] := List.getElem?_eq_getElem h
    have := mem_withIdxFrom_of_getElem? (l := keys) 0 i ha
    simp only [Nat.zero_add] at this
    exact List.mem_map.mpr ⟨(i, keys[i]), this, rfl⟩

theorem sortedIdx_nodup (keys : List Int) : (sortedIdx keys).Nodup :=
  (((isortIdx_perm (withIdx keys)).map Prod.fst).symm).nodup
    (nodup_map_fst_withIdxFrom 0 keys)

theorem sortedIdx_strictMax {keys : List Int} {si : Nat} {kmax : Int}
    (hk : keys[si]? = some kmax)
    (hmax : ∀ j k, j ≠ si → keys[j]? = some k → k < kmax) :
    ∃ u, sortedIdx keys = u ++ [si] ∧ si ∉ u := by
  have hmem : (si, kmax) ∈ isortIdx (withIdx keys) := by
    rw [(isortIdx_perm (withIdx keys)).mem_iff]
    simpa using mem_withIdxFrom_of_getElem? (l := keys) 0 si hk
  obtain ⟨U, V, hUV⟩ := List.append_of_mem hmem
  have hnodupfst : ((isortIdx (withIdx keys)).map Prod.fst).Nodup :=
    (((isortIdx_perm (withIdx keys)).map Prod.fst).symm).nodup
      (nodup_map_fst_withIdxFrom 0 keys)
  have hV : V = [] := by
    cases hVcase : V with
    | nil => rfl
    | cons b bs =>
      exfalso
      have hbmem : b ∈ isortIdx (withIdx keys) := by
        rw [hUV, hVcase]; simp
      have hb_in_w : b ∈ withIdx keys := (isortIdx_perm (withIdx keys)).subset hbmem
      have hb_get : keys[b.1]? = some b.2 := by
        have := getElem?_of_mem_withIdxFrom (n := 0) (i := b.1) (a := b.2)
          (by simpa using hb_in_w)
        simpa using this.2
      have hle : kmax ≤ b.2 := by
        have hpw := isortIdx_pairwise (withIdx keys)
        rw [hUV, hVcase] at hpw
        have := (List.pairwise_append.mp hpw).2.1
        have := List.pairwise_cons.mp this
        exact this.1 b (by simp)
      by_cases hbsi : b.1 = si
      · -- two occurrences of index si contradict fst-nodup
        rw [hUV, hVcase] at hnodupfst
        simp only [List.map_append, List.map_cons] at hnodupfst
        have := (List.nodup_append.mp hnodupfst).2.1
        have := List.nodup_cons.mp this
        exact this.1 (by simp [hbsi.symm] : si ∈ (b :: bs).map Prod.fst)
      · exact absurd hle (not_le.mpr (hmax b.1 b.2 hbsi hb_get))
  refine ⟨U.map Prod.fst, ?_, ?_⟩
  · unfold sortedIdx
    rw [hUV, hV]
    simp
  · intro hcontra
    rw [hUV, hV] at hnodupfst
    simp only [List.map_append, List.map_cons, List.map_nil] at hnodupfst
    have := List.nodup_append.mp hnodupfst
    exact this.2.2 hcontra (by simp)

theorem find?_eq_some_split {l : List α} {p : α → Bool} {a : α} (h : l.find? p = some a) :
    ∃ u v, l = u ++ a :: v ∧ (∀ x ∈ u, p x = false) ∧ p a = true := by
  induction l with
  | nil => simp at h
  | cons b bs ih =>
    by_cases hb : p b
    · rw [List.find?_cons_of_pos _ hb] at h
      cases h
      exact ⟨[], bs, rfl, by simp, hb⟩
    · rw [List.find?_cons_of_neg _ (by simpa using hb)] at h
      obtain ⟨u, v, rfl, hu, ha⟩ := ih h
      exact ⟨b :: u, v, rfl, by
        intro x hx
        rcases List.mem_cons.mp hx with rfl | hx
        · simpa using hb
        · exact hu x hx, ha⟩

theorem find?_append_false {l₁ l₂ : List α} {p : α → Bool} (h : ∀ x ∈ l₁, p x = false) :
    (l₁ ++ l₂).find? p = l₂.find? p := by
  induction l₁ with
  | nil => rfl
  | cons b bs ih =>
    rw [List.cons_append, List.find?_cons_of_neg _ (by simp [h b (by simp)])]
    exact ih fun x hx => h x (by simp [hx])

theorem find?_congr_pred {l : List α} {p q : α → Bool} (h : ∀ x ∈ l, p x = q x) :
    l.find? p = l.find? q := by
  induction l with
  | nil => rfl
  | cons b bs ih =>
    have hb := h b (by simp)
    by_cases hpb : p b
    · rw [List.find?_cons_of_pos _ hpb, List.find?_cons_of_pos _ (hb ▸ hpb)]
    · rw [List.find?_cons_of_neg _ (by simpa using hpb),
        List.find?_cons_of_neg _ (by simp [← hb]; simpa using hpb)]
      exact ih fun x hx => h x (by simp [hx])

theorem nodup_append_cons_inj {u₁ v₁ u₂ v₂ : List α} {a : α}
    (hn : (u₁ ++ a :: v₁).Nodup) (he : u₁ ++ a :: v₁ = u₂ ++ a :: v₂) :
    u₁ = u₂ ∧ v₁ = v₂ := by
  induction u₁ generalizing u₂ with
  | nil =>
    cases u₂ with
    | nil => simpa using he
    | cons b u₂' =>
      exfalso
      simp only [List.nil_append, List.cons_append, List.cons.injEq] at he
      obtain ⟨rfl, hv⟩ := he
      have : a ∈ v₁ := by rw [hv]; simp
      exact (List.nodup_cons.mp (by simpa using hn)).1 this
  | cons c u₁' ih =>
    cases u₂ with
    | nil =>
      exfalso
      simp only [List.cons_append, List.nil_append, List.cons.injEq] at he
      obtain ⟨hca, hv⟩ := he
      have hmem : a ∈ u₁' ++ a :: v₁ := by simp
      rw [List.cons_append] at hn
      have hnotin := (List.nodup_cons.mp hn).1
      rw [hca] at hnotin
      exact hnotin hmem
    | cons b u₂' =>
      simp only [List.cons_append, List.cons.injEq] at he
      obtain ⟨rfl, he'⟩ := he
      have := ih (by simpa using (List.nodup_cons.mp (by simpa using hn)).2) he'
      exact ⟨by rw [this.1], this.2⟩

theorem nodup_map_eq {l : List α} {f : α → β} (h : (l.map f).Nodup)
    {a b : α} (ha : a ∈ l) (hb : b ∈ l) (hf : f a = f b) : a = b := by
  induction l with
  | nil => simp at ha
  | cons c cs ih =>
    simp only [List.map_cons, List.nodup_cons] at h
    rcases List.mem_cons.mp ha with rfl | ha' <;> rcases List.mem_cons.mp hb with rfl | hb'
    · rfl
    · exact absurd (hf ▸ List.mem_map_of_mem f hb') h.1
    · exact absurd (hf ▸ List.mem_map_of_mem f ha') h.1
    · exact ih h.2 ha' hb'

/-! ## Lemmas about slots and the scan order -/

theorem fst_of_mem_slotBlock {p : Plan} {pi : Nat} {s : Nat × Nat}
    (h : s ∈ slotBlock p pi) : s.1 = pi := by
  unfold slotBlock at h
  cases hph : p.phases[pi]? with
  | none => rw [hph] at h; simp at h
  | some ph =>
    rw [hph] at h
    obtain ⟨ii, _, rfl⟩ := List.mem_map.mp h
    rfl

theorem slotBlock_of_phase {p : Plan} {pi : Nat} {ph : Phase}
    (hph : p.phases[pi]? = some ph) :
    slotBlock p pi = (sortedIdx (itemKeys ph)).map fun ii => (pi, ii) := by
  unfold slotBlock
  rw [hph]

theorem itemAt_isSome_of_mem_slots {p : Plan} {s : Nat × Nat} (h : s ∈ slots p) :
    ∃ it, itemAt p s = some it := by
  unfold slots at h
  obtain ⟨pi, hpi, hblk⟩ := List.mem_flatMap.mp h
  have hlen : pi < p.phases.length := by
    have := mem_sortedIdx.mp hpi
    simpa [phaseKeys] using this
  have hph : p.phases[pi]? = some p.phases[pi] := List.getElem?_eq_getElem hlen
  rw [slotBlock_of_phase hph] at hblk
  obtain ⟨ii, hii, rfl⟩ := List.mem_map.mp hblk
  have hii' : ii < p.phases[pi].items.length := by
    have := mem_sortedIdx.mp hii
    simpa [itemKeys] using this
  exact ⟨p.phases[pi].items[ii], by simp [itemAt, hph, List.getElem?_eq_getElem hii']⟩

theorem slots_congr {p q : Plan} (h₁ : phaseKeys p = phaseKeys q)
    (h₂ : ∀ i : Nat, (p.phases[i]?).map itemKeys = (q.phases[i]?).map itemKeys) :
    slots p = slots q := by
  unfold slots
  rw [h₁]
  refine List.flatMap_congr fun pi _ => ?_
  have := h₂ pi
  cases hp : p.phases[pi]? with
  | none =>
    cases hq : q.phases[pi]? with
    | none => unfold slotBlock; rw [hp, hq]
    | some ph => rw [hp, hq] at this; simp at this
  | some ph =>
    cases hq : q.phases[pi]? with
    | none => rw [hp, hq] at this; simp at this
    | some ph' =>
      rw [hp, hq] at this
      simp only [Option.map_some', Option.some.injEq] at this
      rw [slotBlock_of_phase hp, slotBlock_of_phase hq, this]

theorem slots_nodup (p : Plan) : (slots p).Nodup := by
  unfold slots
  rw [List.nodup_flatMap]
  constructor
  · intro pi _
    unfold slotBlock
    cases hph : p.phases[pi]? with
    | none => simp
    | some ph =>
      exact (sortedIdx_nodup (itemKeys ph)).map_on
        (fun x _ y _ h => by simpa using h)
  · have hnd := sortedIdx_nodup (phaseKeys p)
    refine List.Pairwise.imp ?_ hnd
    intro pi pj hne s hs hs'
    exact hne ((fst_of_mem_slotBlock hs).symm.trans (fst_of_mem_slotBlock hs'))

/-! ## Lemmas about `modifyItem` and the operations -/

theorem modifyItem_phases (p : Plan) (s : Nat × Nat) (f : Item → Item) :
    (modifyItem p s f).phases
      = modifyIdx (fun ph => { ph with items := modifyIdx f s.2 ph.items }) s.1 p.phases :=
  rfl

theorem itemAt_modifyItem (p : Plan) (s t : Nat × Nat) (f : Item → Item) :
    itemAt (modifyItem p s f) t = if t = s then (itemAt p t).map f else itemAt p t := by
  unfold itemAt
  rw [modifyItem_phases, getElem?_modifyIdx]
  by_cases h1 : t.1 = s.1
  · rw [if_pos h1]
    cases hph : p.phases[t.1]? with
    | none => simp [Prod.ext_iff, h1]
    | some ph =>
      simp only [Option.map_some', Option.some_bind]
      rw [getElem?_modifyIdx]
      by_cases h2 : t.2 = s.2
      · rw [if_pos h2, if_pos (Prod.ext_iff.mpr ⟨h1, h2⟩)]
      · rw [if_neg h2, if_neg (fun hts => h2 (by rw [hts]))]
  · rw [if_neg h1, if_neg (fun hts => h1 (by rw [hts]))]

theorem modifyItem_phaseKeys (p : Plan) (s : Nat × Nat) (f : Item → Item) :
    phaseKeys (modifyItem p s f) = phaseKeys p := by
  unfold phaseKeys
  rw [modifyItem_phases]
  exact map_modifyIdx (fun ph => { ph with items := modifyIdx f s.2 ph.items }) Phase.order (fun ph => rfl) s.1 p.phases

theorem modifyItem_itemKeys (p : Plan) (s : Nat × Nat) (f : Item → Item)
    (hf : ∀ it, (f it).order = it.order) (i : Nat) :
    ((modifyItem p s f).phases[i]?).map itemKeys = (p.phases[i]?).map itemKeys := by
  rw [modifyItem_phases, getElem?_modifyIdx]
  by_cases h : i = s.1
  · rw [if_pos h]
    cases hph : p.phases[i]? with
    | none => rfl
    | some ph =>
      simp only [Option.map_some', Option.some.injEq]
      unfold itemKeys
      exact map_modifyIdx f Item.order hf s.2 ph.items
  · rw [if_neg h]

theorem slots_modifyItem (p : Plan) (s : Nat × Nat) (f : Item → Item)
    (hf : ∀ it, (f it).order = it.order) :
    slots (modifyItem p s f) = slots p :=
  slots_congr (modifyItem_phaseKeys p s f) (modifyItem_itemKeys p s f hf)

theorem statusAt_modifyItem_preserve (p : Plan) (s t : Nat × Nat) (f : Item → Item)
    (hf : ∀ it, (f it).status = it.status) :
    statusAt (modifyItem p s f) t = statusAt p t := by
  unfold statusAt
  rw [itemAt_modifyItem]
  by_cases h : t = s
  · rw [if_pos h, Option.map_map]
    exact congrFun (congrArg Option.map (funext fun it => hf it)) _
  · rw [if_neg h]

theorem modifyItem_top_fields (p : Plan) (s : Nat × Nat) (f : Item → Item) :
    (modifyItem p s f).id = p.id ∧ (modifyItem p s f).goal = p.goal ∧
    (modifyItem p s f).duration = p.duration ∧
    (modifyItem p s f).weekly_hours = p.weekly_hours :=
  ⟨rfl, rfl, rfl, rfl⟩

theorem modifyItem_phase_shape (p : Plan) (s : Nat × Nat) (f : Item → Item) (i : Nat) :
    ((modifyItem p s f).phases[i]?).map (fun ph => (ph.id, ph.name, ph.order, ph.items.length))
      = (p.phases[i]?).map (fun ph => (ph.id, ph.name, ph.order, ph.items.length)) := by
  rw [modifyItem_phases, getElem?_modifyIdx]
  by_cases h : i = s.1
  · rw [if_pos h]
    cases hph : p.phases[i]? with
    | none => rfl
    | some ph => simp [modifyIdx_length]
  · rw [if_neg h]

theorem complete_current_of_slot {p : Plan} {s : Nat × Nat}
    (hs : getCurrentSlot p = some s) :
    complete_current p = (true, modifyItem p s fun it => { it with status := .completed }) := by
  unfold complete_current
  rw [hs]

theorem complete_current_of_none {p : Plan} (hs : getCurrentSlot p = none) :
    complete_current p = (false, p) := by
  unfold complete_current
  rw [hs]

theorem statusAt_of_currentSlot {p : Plan} {s : Nat × Nat}
    (hs : getCurrentSlot p = some s) : statusAt p s = some .pending := by
  have := List.find?_some hs
  unfold pendingAt at this
  exact eq_of_beq this

theorem currentSlot_mem_slots {p : Plan} {s : Nat × Nat}
    (hs : getCurrentSlot p = some s) : s ∈ slots p :=
  List.mem_of_find?_eq_some hs

/-! ## Serialization lemmas and claim C9 -/

theorem statusValue_roundtrip (st : ItemStatus) :
    ItemStatus.fromValue st.value = some st := by
  cases st <;> rfl

theorem durationValue_roundtrip (d : Duration) :
    Duration.fromValue d.value = some d := by
  cases d <;> rfl

theorem item_dict_roundtrip (it : Item) : Item.from_dict it.to_dict = some it := by
  unfold Item.from_dict Item.to_dict
  rw [statusValue_roundtrip]
  rfl

theorem mapOpt_map_of {f : α → Option β} {g : β → α} (h : ∀ b, f (g b) = some b)
    (l : List β) : mapOpt f (l.map g) = some l := by
  induction l with
  | nil => rfl
  | cons b bs ih =>
    unfold mapOpt
    rw [List.map_cons]
    simp only
    rw [h b, ih]

theorem phase_dict_roundtrip (ph : Phase) : Phase.from_dict ph.to_dict = some ph := by
  unfold Phase.from_dict Phase.to_dict
  rw [mapOpt_map_of item_dict_roundtrip]
  rfl

/-- C9: for every plan (the typed model makes the claim's provisos — a valid
duration code and valid item status values — automatic, since `Plan` stores
the enums themselves), `from_dict (to_dict p)` reconstructs the plan field
for field, with all phases and items in the same order. -/
theorem plan_roundtrip (p : Plan) : Plan.from_dict (Plan.to_dict p) = some p := by
  unfold Plan.from_dict Plan.to_dict
  rw [durationValue_roundtrip]
  simp only [Option.some_bind]
  rw [mapOpt_map_of phase_dict_roundtrip]
  rfl

/-! ## Scaler lemmas and claim C4 -/

/-- C4: whenever the target item count strictly exceeds the template's item
count but the multiplier `target/current` is at most 1.5 (stated exactly as
`2·target ≤ 3·current`), `_adjust_items_for_duration` returns the template
unchanged. -/
theorem adjust_unchanged (phases : List (String × List String)) (d : Duration) (wh : Nat)
    (hwh1 : 1 ≤ wh) (hwh2 : wh ≤ 40)
    (hgt : templateItemCount phases < targetItemCount d wh)
    (hle : 2 * targetItemCount d wh ≤ 3 * templateItemCount phases) :
    adjustItems phases d wh = phases := by
  unfold adjustItems
  simp only [if_pos hgt, if_neg (not_lt.mpr hle)]
  exact List.map_id' phases

/-- Witness for C4 at the claim's own numbers: 12 weeks × 5 h/week gives
target 20 over the 16-item project template (multiplier 1.25 ≤ 1.5), and the
output is the unchanged 16-item template. -/
theorem adjust_unchanged_witness :
    1 ≤ 5 ∧ 5 ≤ 40 ∧ templateItemCount PROJECT_PHASES = 16 ∧
    targetItemCount .threeMonths 5 = 20 ∧
    adjustItems PROJECT_PHASES .threeMonths 5 = PROJECT_PHASES :=
  ⟨by decide, by decide, by decide, by decide,
    adjust_unchanged PROJECT_PHASES .threeMonths 5 (by decide) (by decide)
      (by decide) (by decide)⟩

/-! ## Classifier lemmas and claim C3 -/

/-- C3: `_detect_category` tests the keyword lists in the fixed priority
order study, project, skill, health and returns the first category with a
substring match against the case-folded goal, `"default"` otherwise; in
particular "운동", which appears in both the skill and the health lists, is
resolved to skill. -/
theorem detect_category_priority (goal : String) :
    (detectCategory goal = "study" ↔ hasKeyword goal studyKeywords = true) ∧
    (detectCategory goal = "project" ↔
      (hasKeyword goal studyKeywords = false ∧ hasKeyword goal projectKeywords = true)) ∧
    (detectCategory goal = "skill" ↔
      (hasKeyword goal studyKeywords = false ∧ hasKeyword goal projectKeywords = false ∧
       hasKeyword goal skillKeywords = true)) ∧
    (detectCategory goal = "health" ↔
      (hasKeyword goal studyKeywords = false ∧ hasKeyword goal projectKeywords = false ∧
       hasKeyword goal skillKeywords = false ∧ hasKeyword goal healthKeywords = true)) ∧
    (detectCategory goal = "default" ↔
      (hasKeyword goal studyKeywords = false ∧ hasKeyword goal projectKeywords = false ∧
       hasKeyword goal skillKeywords = false ∧ hasKeyword goal healthKeywords = false)) ∧
    ("운동" ∈ skillKeywords ∧ "운동" ∈ healthKeywords ∧ detectCategory "운동하기" = "skill") := by
  refine ⟨?_, ?_, ?_, ?_, ?_, by decide, by decide, by decide⟩ <;>
  · unfold detectCategory keywordTable
    by_cases h1 : hasKeyword goal studyKeywords <;>
    by_cases h2 : hasKeyword goal projectKeywords <;>
    by_cases h3 : hasKeyword goal skillKeywords <;>
    by_cases h4 : hasKeyword goal healthKeywords <;>
      simp [List.find?, h1, h2, h3, h4]

/-! ## Generator shape lemmas and claim C2 -/

theorem withIdxFrom_length (n : Nat) (l : List α) : (withIdxFrom n l).length = l.length := by
  induction l generalizing n with
  | nil => rfl
  | cons a as ih => simp [withIdxFrom, ih]

theorem map_snd_withIdxFrom (n : Nat) (l : List α) (f : α → β) :
    (withIdxFrom n l).map (fun pr => f pr.2) = l.map f := by
  induction l generalizing n with
  | nil => rfl
  | cons a as ih => simp [withIdxFrom, ih]

theorem detectCategory_cases (goal : String) :
    detectCategory goal = "study" ∨ detectCategory goal = "project" ∨
    detectCategory goal = "skill" ∨ detectCategory goal = "health" ∨
    detectCategory goal = "default" := by
  unfold detectCategory
  cases hf : keywordTable.find? (fun ck => hasKeyword goal ck.2) with
  | none => simp
  | some ck =>
    have hmem := List.mem_of_find?_eq_some hf
    fin_cases hmem <;> simp

theorem adjustItems_length (phases : List (String × List String)) (d : Duration) (wh : Nat) :
    (adjustItems phases d wh).length = phases.length := by
  unfold adjustItems
  by_cases h : templateItemCount phases < targetItemCount d wh <;> simp [h]

theorem templateItemCount_adjustItems_ge (phases : List (String × List String))
    (d : Duration) (wh : Nat) :
    templateItemCount phases ≤ templateItemCount (adjustItems phases d wh) := by
  have key : ∀ (c t : Nat) (pt : String × List String),
      pt.2.length ≤ (if 3 * c < 2 * t then
          (pt.1, pt.2 ++ (pt.2.take (pt.2.length * (t - c) / c)).map fun item => item ++ " (심화)")
        else (pt.1, pt.2)).2.length := by
    intro c t pt
    by_cases hc : 3 * c < 2 * t <;> simp [hc]
  unfold adjustItems
  by_cases h : templateItemCount phases < targetItemCount d wh
  · rw [if_pos h]
    unfold templateItemCount
    rw [List.map_map]
    exact List.sum_le_sum fun pt _ => key _ _ pt
  · rw [if_neg h]

theorem assemble_item_counts (tpl : List (String × List String)) :
    (assemble tpl).map (fun ph => ph.items.length) = tpl.map fun pt => pt.2.length := by
  unfold assemble
  rw [List.map_map]
  simp only [Function.comp_def, List.length_map, withIdx, withIdxFrom_length]
  exact map_snd_withIdxFrom 0 tpl fun x => x.2.length

theorem totalItems_assemble (tpl : List (String × List String)) (idv goalv : String)
    (d : Duration) (wh : Nat) :
    totalItems
        { id := idv, goal := goalv, duration := d, weekly_hours := wh,
          phases := assemble tpl }
      = templateItemCount tpl := by
  unfold totalItems templateItemCount
  simp only
  rw [assemble_item_counts]

theorem assemble_length (tpl : List (String × List String)) :
    (assemble tpl).length = tpl.length := by
  unfold assemble withIdx
  rw [List.length_map, withIdxFrom_length]

/-- C2: for every non-empty goal, every duration and every weekly-hours in
[1,40], `generate` returns a plan with between 3 and 5 phases and at least
10 items in total. -/
theorem generate_shape (goal : String) (d : Duration) (wh : Nat)
    (hg : goal ≠ "") (h1 : 1 ≤ wh) (h2 : wh ≤ 40) :
    3 ≤ (generate goal d wh).phases.length ∧ (generate goal d wh).phases.length ≤ 5 ∧
    10 ≤ totalItems (generate goal d wh) := by
  have hlen : (generate goal d wh).phases.length
      = (getPhaseTemplate (detectCategory goal)).length := by
    unfold generate
    simp only
    rw [assemble_length, adjustItems_length]
  have hcnt : templateItemCount (getPhaseTemplate (detectCategory goal))
      ≤ totalItems (generate goal d wh) := by
    unfold generate
    rw [totalItems_assemble]
    exact templateItemCount_adjustItems_ge _ d wh
  rcases detectCategory_cases goal with h | h | h | h | h <;> rw [h] at hlen hcnt <;>
    exact ⟨by rw [hlen]; decide, by rw [hlen]; decide, le_trans (by decide) hcnt⟩

/-- Witness for C2 at a concrete valid input. -/
theorem generate_shape_witness :
    ("x" ≠ "" ∧ 1 ≤ 1 ∧ (1 : Nat) ≤ 40) ∧
    (3 ≤ (generate "x" .threeMonths 1).phases.length ∧
     (generate "x" .threeMonths 1).phases.length ≤ 5 ∧
     10 ≤ totalItems (generate "x" .threeMonths 1)) :=
  ⟨⟨by decide, by decide, by decide⟩,
    generate_shape "x" .threeMonths 1 (by decide) (by decide) (by decide)⟩

/-! ## Status-machine lemmas and claim C8 -/

theorem itemAt_eq_some {p : Plan} {s : Nat × Nat} {X : Item} :
    itemAt p s = some X ↔ ∃ ph, p.phases[s.1]? = some ph ∧ ph.items[s.2]? = some X := by
  unfold itemAt
  cases p.phases[s.1]? <;> simp

theorem statusAt_modifyItem_ne (p : Plan) (s t : Nat × Nat) (f : Item → Item) (h : t ≠ s) :
    statusAt (modifyItem p s f) t = statusAt p t := by
  unfold statusAt
  rw [itemAt_modifyItem, if_neg h]

theorem statusAt_complete_step (p : Plan) (t : Nat × Nat) :
    statusAt (complete_current p).2 t = statusAt p t ∨
    (statusAt p t = some .pending ∧ statusAt (complete_current p).2 t = some .completed) := by
  cases hs : getCurrentSlot p with
  | none => rw [complete_current_of_none hs]; left; rfl
  | some s =>
    rw [complete_current_of_slot hs]
    by_cases hts : t = s
    · subst hts
      right
      have hpend := statusAt_of_currentSlot hs
      refine ⟨hpend, ?_⟩
      obtain ⟨X, hX⟩ : ∃ X, itemAt p t = some X := by
        unfold statusAt at hpend
        cases hX : itemAt p t with
        | none => rw [hX] at hpend; simp at hpend
        | some X => exact ⟨X, rfl⟩
      unfold statusAt
      rw [itemAt_modifyItem, if_pos rfl, hX]
      rfl
    · left
      exact statusAt_modifyItem_ne p s t _ hts

theorem skipPlan_eq_cases (p : Plan) :
    skipPlan p = p ∨
    ∃ s m, skipPlan p = modifyItem p s fun it => { it with order := m + 1 } := by
  unfold skipPlan skip_current
  cases h1 : getCurrentSlot p with
  | none => left; rfl
  | some s =>
    cases h2 : itemAt p s with
    | none => left; simp [h2]
    | some cur =>
      cases h3 : p.phases.find? (fun ph => ph.id == cur.phase_id) with
      | none => left; simp [h2, h3]
      | some ph =>
        cases h4 : listMax? (itemKeys ph) with
        | none => left; simp [h2, h3, h4]
        | some m => right; exact ⟨s, m, by simp [h2, h3, h4]⟩

theorem skipPlan_statusAt (p : Plan) (t : Nat × Nat) :
    statusAt (skipPlan p) t = statusAt p t := by
  rcases skipPlan_eq_cases p with h | ⟨s, m, h⟩
  · rw [h]
  · rw [h]
    exact statusAt_modifyItem_preserve p s t _ fun it => rfl

/-- C8: complete_current either leaves a slot's status unchanged or moves it
from pending to completed; skip_current never changes any status; completed
is terminal; and neither mutation ever assigns the skipped status.  (The
read operations — get_current_item, get_current_phase, get_progress — are
pure functions of the plan in code and model alike and perform no
transition.) -/
theorem status_transition_discipline (p : Plan) (t : Nat × Nat) :
    (statusAt (complete_current p).2 t = statusAt p t ∨
      (statusAt p t = some .pending ∧ statusAt (complete_current p).2 t = some .completed)) ∧
    statusAt (skipPlan p) t = statusAt p t ∧
    (statusAt p t = some .completed → statusAt (complete_current p).2 t = some .completed) ∧
    (statusAt (complete_current p).2 t = some .skipped → statusAt p t = some .skipped) ∧
    (statusAt (skipPlan p) t = some .skipped → statusAt p t = some .skipped) := by
  have hc := statusAt_complete_step p t
  have hsk := skipPlan_statusAt p t
  refine ⟨hc, hsk, ?_, ?_, ?_⟩
  · intro h
    rcases hc with h' | ⟨h1, h2⟩
    · rw [h', h]
    · exact h2
  · intro h
    rcases hc with h' | ⟨h1, h2⟩
    · rw [← h', h]
    · rw [h] at h2
      simp at h2
  · intro h
    rw [← hsk, h]

/-- Witness for C8: a completed item stays completed across complete_current. -/
theorem status_transition_discipline_witness :
    statusAt donePlan (0, 0) = some .completed ∧
    statusAt (complete_current donePlan).2 (0, 0) = some .completed :=
  ⟨by decide, (status_transition_discipline donePlan (0, 0)).2.2.1 (by decide)⟩

/-! ## Lemmas for the current-item step and claim C5 -/

theorem dropWhile_bne_append {u v : List (Nat × Nat)} {s : Nat × Nat}
    (hu : ∀ x ∈ u, x ≠ s) :
    ((u ++ s :: v).dropWhile fun t => t != s) = s :: v := by
  induction u with
  | nil =>
    rw [List.nil_append, List.dropWhile_cons_of_neg]
    simp
  | cons a as ih =>
    rw [List.cons_append, List.dropWhile_cons_of_pos]
    · exact ih fun x hx => hu x (List.mem_cons_of_mem a hx)
    · simpa [bne_iff_ne] using hu a (List.mem_cons_self a as)

/-- C5: on a plan with a current item, complete_current reports success, sets
exactly that item's status to completed, changes nothing else (no other
item, no phase field, no plan field), and the next get_current_item returns
the next pending item in ascending (phase order, item order) scan order —
`nextPendingItem p s` — or none if there is no later pending item. -/
theorem complete_current_correct (p : Plan) (s : Nat × Nat) (X : Item)
    (hs : getCurrentSlot p = some s) (hX : itemAt p s = some X) :
    (complete_current p).1 = true ∧
    itemAt (complete_current p).2 s = some { X with status := .completed } ∧
    (∀ t, t ≠ s → itemAt (complete_current p).2 t = itemAt p t) ∧
    (complete_current p).2.id = p.id ∧ (complete_current p).2.goal = p.goal ∧
    (complete_current p).2.duration = p.duration ∧
    (complete_current p).2.weekly_hours = p.weekly_hours ∧
    (∀ i : Nat, ((complete_current p).2.phases[i]?).map
        (fun ph => (ph.id, ph.name, ph.order, ph.items.length))
      = (p.phases[i]?).map (fun ph => (ph.id, ph.name, ph.order, ph.items.length))) ∧
    get_current_item (complete_current p).2 = nextPendingItem p s := by
  rw [complete_current_of_slot hs]
  have hslots : slots (modifyItem p s fun it => { it with status := .completed }) = slots p :=
    slots_modifyItem p s _ fun it => rfl
  obtain ⟨u, v, hsplit, hu, hps⟩ := find?_eq_some_split hs
  have hnodup := slots_nodup p
  rw [hsplit] at hnodup
  have hsv : s ∉ v := (List.nodup_cons.mp (List.nodup_append.mp hnodup).2.1).1
  have hune : ∀ x ∈ u, x ≠ s := by
    intro x hx hxs
    have hfx := hu x hx
    rw [hxs, hps] at hfx
    simp at hfx
  have hafter : slotsAfter p s = v := by
    unfold slotsAfter
    rw [hsplit, dropWhile_bne_append hune]
    rfl
  have hcs : getCurrentSlot (modifyItem p s fun it => { it with status := .completed })
      = nextPendingSlot p s := by
    unfold getCurrentSlot
    rw [hslots, hsplit, find?_append_false ?uoff]
    case uoff =>
      intro x hx
      have hxs := hune x hx
      unfold pendingAt
      rw [statusAt_modifyItem_ne p s x _ hxs]
      have := hu x hx
      unfold pendingAt at this
      exact this
    rw [List.find?_cons_of_neg]
    · unfold nextPendingSlot
      rw [hafter]
      refine find?_congr_pred fun x hx => ?_
      unfold pendingAt
      rw [statusAt_modifyItem_ne p s x _ fun hxs => hsv (hxs ▸ hx)]
    · unfold pendingAt statusAt
      rw [itemAt_modifyItem, if_pos rfl, hX]
      simp
  refine ⟨rfl, ?_, ?_, rfl, rfl, rfl, rfl, modifyItem_phase_shape p s _, ?_⟩
  · rw [itemAt_modifyItem, if_pos rfl, hX]
    rfl
  · intro t hts
    rw [itemAt_modifyItem, if_neg hts]
  · unfold get_current_item nextPendingItem
    rw [hcs]
    cases hw : nextPendingSlot p s with
    | none => rfl
    | some w =>
      simp only [Option.some_bind]
      have hwv : w ∈ v := by
        unfold nextPendingSlot at hw
        rw [hafter] at hw
        exact List.mem_of_find?_eq_some hw
      rw [itemAt_modifyItem, if_neg fun hws => hsv (by rw [← hws]; exact hwv)]

/-- Witness for C5 on a concrete plan with a current item. -/
theorem complete_current_correct_witness :
    getCurrentSlot wPlan = some (0, 0) ∧
    get_current_item (complete_current wPlan).2 = nextPendingItem wPlan (0, 0) := by
  have h := complete_current_correct wPlan (0, 0)
    { id := "A", name := "a", phase_id := "P1", order := 0, status := .pending }
    (by decide) (by decide)
  exact ⟨by decide, h.2.2.2.2.2.2.2.2⟩

/-! ## Skip lemmas and claims C6, C7 -/

theorem le_foldl_max (l : List Int) (a : Int) : a ≤ l.foldl max a := by
  induction l generalizing a with
  | nil => exact le_refl a
  | cons b bs ih => exact le_trans (le_max_left a b) (ih (max a b))

theorem mem_le_foldl_max {k : Int} : ∀ (l : List Int) (a : Int), k ∈ l → k ≤ l.foldl max a
  | [], _, hk => absurd hk (List.not_mem_nil k)
  | b :: bs, a, hk => by
    rcases List.mem_cons.mp hk with rfl | h
    · exact le_trans (le_max_right a k) (le_foldl_max bs (max a k))
    · exact mem_le_foldl_max bs (max a b) h

theorem listMax?_bound {l : List Int} {m : Int} (h : listMax? l = some m) :
    ∀ k ∈ l, k ≤ m := by
  cases l with
  | nil => cases h
  | cons b bs =>
    unfold listMax? at h
    cases h
    intro k hk
    rcases List.mem_cons.mp hk with rfl | h'
    · exact le_foldl_max bs k
    · exact mem_le_foldl_max bs b h'

theorem find_owning_phase {p : Plan} {pi : Nat} {X : Item} {ph : Phase}
    (hWF : WF p) (hph : p.phases[pi]? = some ph) (hmem : X ∈ ph.items) :
    p.phases.find? (fun q => q.id == X.phase_id) = some ph := by
  have hphmem : ph ∈ p.phases := List.getElem?_mem hph
  have hid : X.phase_id = ph.id := hWF.1 ph hphmem X hmem
  cases hf : p.phases.find? (fun q => q.id == X.phase_id) with
  | none =>
    exfalso
    have := List.find?_eq_none.mp hf ph hphmem
    apply this
    rw [hid]
    simp
  | some ph' =>
    have h1 : (ph'.id == X.phase_id) = true :=
      List.find?_some (p := fun q : Phase => q.id == X.phase_id) hf
    have h2 : ph' ∈ p.phases := List.mem_of_find?_eq_some hf
    have h3 : ph'.id = ph.id := by rw [eq_of_beq h1, hid]
    rw [nodup_map_eq hWF.2 h2 hphmem h3]

theorem skip_current_success {p : Plan} {s : Nat × Nat} {X : Item}
    (hWF : WF p) (hs : getCurrentSlot p = some s) (hX : itemAt p s = some X) :
    ∃ ph m, p.phases[s.1]? = some ph ∧ X ∈ ph.items ∧
      listMax? (itemKeys ph) = some m ∧ (∀ k ∈ itemKeys ph, k ≤ m) ∧
      skip_current p = some (true, modifyItem p s fun it => { it with order := m + 1 }) := by
  obtain ⟨ph, hph, hXi⟩ := itemAt_eq_some.mp hX
  have hmem : X ∈ ph.items := List.getElem?_mem hXi
  have hfind := find_owning_phase hWF hph hmem
  obtain ⟨m, hm⟩ : ∃ m, listMax? (itemKeys ph) = some m := by
    cases hk : itemKeys ph with
    | nil =>
      exfalso
      unfold itemKeys at hk
      rw [List.map_eq_nil_iff] at hk
      rw [hk] at hmem
      cases hmem
    | cons a as => exact ⟨_, rfl⟩
  refine ⟨ph, m, hph, hmem, hm, listMax?_bound hm, ?_⟩
  unfold skip_current
  simp only [hs, hX, hfind, hm]

/-- C6 is refuted as universally quantified over plans: `danglingPlan` has a
current item, but that item's `phase_id` matches no phase (such plans are
reachable through `Plan.from_dict`, which validates nothing), so
`skip_current` returns failure and mutates nothing, instead of setting the
order and returning success. -/
theorem skip_current_dangling_failure :
    (get_current_item danglingPlan).map Item.id = some "I" ∧
    skip_current danglingPlan = some (false, danglingPlan) :=
  ⟨by decide, by decide⟩

/-- C6 (amended): on every *well-formed* plan — each item's `phase_id` is
the id of the phase containing it and phase ids are distinct, which is how
the spec's data model defines the back-reference — with a current item,
skip_current returns success, sets exactly that item's order to (maximum
order among the items of its phase) + 1, leaves its status pending, and
changes nothing else. -/
theorem skip_current_correct (p : Plan) (s : Nat × Nat) (X : Item)
    (hWF : WF p) (hs : getCurrentSlot p = some s) (hX : itemAt p s = some X) :
    ∃ ph m p', p.phases[s.1]? = some ph ∧ X ∈ ph.items ∧
      listMax? (ph.items.map Item.order) = some m ∧ (∀ it ∈ ph.items, it.order ≤ m) ∧
      skip_current p = some (true, p') ∧
      itemAt p' s = some { X with order := m + 1 } ∧ X.status = .pending ∧
      (∀ t, t ≠ s → itemAt p' t = itemAt p t) ∧
      p'.id = p.id ∧ p'.goal = p.goal ∧ p'.duration = p.duration ∧
      p'.weekly_hours = p.weekly_hours ∧
      (∀ i : Nat, (p'.phases[i]?).map (fun q => (q.id, q.name, q.order, q.items.length))
        = (p.phases[i]?).map fun q => (q.id, q.name, q.order, q.items.length)) := by
  obtain ⟨ph, m, hph, hmem, hm, hbound, hskip⟩ := skip_current_success hWF hs hX
  refine ⟨ph, m, _, hph, hmem, hm, ?_, hskip, ?_, ?_, ?_, rfl, rfl, rfl, rfl,
    modifyItem_phase_shape p s _⟩
  · intro it hit
    exact hbound it.order (List.mem_map_of_mem Item.order hit)
  · rw [itemAt_modifyItem, if_pos rfl, hX]
    rfl
  · have hpend := statusAt_of_currentSlot hs
    unfold statusAt at hpend
    rw [hX] at hpend
    simpa using hpend
  · intro t hts
    rw [itemAt_modifyItem, if_neg hts]

/-- Witness for the amended C6 on a concrete well-formed plan. -/
theorem skip_current_correct_witness :
    WF wPlan ∧ (skip_current wPlan).map Prod.fst = some true := by
  obtain ⟨ph, m, p', hph, hmem, hm, hb, hskip, _⟩ := skip_current_correct wPlan (0, 0)
    { id := "A", name := "a", phase_id := "P1", order := 0, status := .pending }
    (by decide) (by decide) (by decide)
  refine ⟨by decide, ?_⟩
  rw [hskip]
  rfl

/-- C7 is refuted as universally quantified over plans: on `raisingPlan` a
current item exists, yet `skip_current` raises (Python's `ValueError` from
`max()` over the empty matched phase's items), modelled as `none` — it does
not return a boolean at all, so "never raise" and the failure-iff condition
both fail. -/
theorem skip_current_raises :
    (get_current_item raisingPlan).map Item.id = some "I" ∧
    skip_current raisingPlan = none :=
  ⟨by decide, by decide⟩

/-- C7 (amended): on every well-formed plan, complete_current and
skip_current return a boolean and never raise, return false exactly when the
plan has no current item, and leave the plan unchanged in that case.  (For
complete_current all of this holds for arbitrary plans; well-formedness is
needed only for skip_current.) -/
theorem mutation_result_discipline (p : Plan) (hWF : WF p) :
    (∃ r, skip_current p = some r) ∧
    ((complete_current p).1 = false ↔ get_current_item p = none) ∧
    (∀ r, skip_current p = some r → (r.1 = false ↔ get_current_item p = none)) ∧
    ((complete_current p).1 = false → (complete_current p).2 = p) ∧
    (∀ r, skip_current p = some r → r.1 = false → r.2 = p) := by
  have hnone : get_current_item p = none ↔ getCurrentSlot p = none := by
    unfold get_current_item
    cases h : getCurrentSlot p with
    | none => simp
    | some s =>
      obtain ⟨it, hit⟩ := itemAt_isSome_of_mem_slots (currentSlot_mem_slots h)
      simp [hit]
  cases hs : getCurrentSlot p with
  | none =>
    have hc := complete_current_of_none hs
    have hsk : skip_current p = some (false, p) := by
      unfold skip_current
      rw [hs]
    refine ⟨⟨(false, p), hsk⟩, ?_, ?_, ?_, ?_⟩
    · rw [hc, hnone, hs]
      simp
    · intro r hr
      rw [hsk] at hr
      injection hr with hr
      subst hr
      rw [hnone, hs]
      simp
    · intro _
      rw [hc]
    · intro r hr _
      rw [hsk] at hr
      injection hr with hr
      subst hr
      rfl
  | some s =>
    obtain ⟨X, hX⟩ := itemAt_isSome_of_mem_slots (currentSlot_mem_slots hs)
    obtain ⟨ph, m, hph, hmem, hm, hb, hskip⟩ := skip_current_success hWF hs hX
    have hc := complete_current_of_slot hs
    have hnot : ¬ get_current_item p = none := by
      rw [hnone, hs]
      simp
    refine ⟨⟨_, hskip⟩, ?_, ?_, ?_, ?_⟩
    · rw [hc]
      simp [hnot]
    · intro r hr
      rw [hskip] at hr
      injection hr with hr
      subst hr
      simp [hnot]
    · intro hfalse
      rw [hc] at hfalse
      simp at hfalse
    · intro r hr hrf
      rw [hskip] at hr
      injection hr with hr
      subst hr
      simp at hrf

/-- Witness for the amended C7 on a concrete well-formed plan. -/
theorem mutation_result_discipline_witness :
    WF wPlan ∧ ∃ r, skip_current wPlan = some r :=
  ⟨by decide, (mutation_result_discipline wPlan (by decide)).1⟩

/-! ## Back-reference invariant lemmas and claim C10 -/

theorem mem_modifyIdx {l : List α} {F : α → α} {i : Nat} {x : α} (h : x ∈ modifyIdx F i l) :
    x ∈ l ∨ ∃ y ∈ l, x = F y := by
  induction l generalizing i with
  | nil => cases i <;> cases h
  | cons a as ih =>
    cases i with
    | zero =>
      rcases List.mem_cons.mp h with rfl | h'
      · right; exact ⟨a, by simp, rfl⟩
      · left; simp [h']
    | succ i =>
      rcases List.mem_cons.mp h with rfl | h'
      · left; simp
      · rcases ih h' with h'' | ⟨y, hy, rfl⟩
        · left; simp [h'']
        · right; exact ⟨y, by simp [hy], rfl⟩

theorem ownsItems_modifyItem {p : Plan} (s : Nat × Nat) {f : Item → Item}
    (hf : ∀ it, (f it).phase_id = it.phase_id) (h : ownsItems p) :
    ownsItems (modifyItem p s f) := by
  intro ph' hph' it hit
  rw [modifyItem_phases] at hph'
  rcases mem_modifyIdx hph' with hmem | ⟨ph, hph, rfl⟩
  · exact h ph' hmem it hit
  · rcases mem_modifyIdx hit with hmem' | ⟨y, hy, rfl⟩
    · exact h ph hph it hmem'
    · rw [hf y]
      exact h ph hph y hy

theorem phaseIds_modifyItem (p : Plan) (s : Nat × Nat) (f : Item → Item) :
    (modifyItem p s f).phases.map Phase.id = p.phases.map Phase.id := by
  rw [modifyItem_phases]
  exact map_modifyIdx (fun ph => { ph with items := modifyIdx f s.2 ph.items })
    Phase.id (fun ph => rfl) s.1 p.phases

theorem complete_plan_cases (p : Plan) :
    (complete_current p).2 = p ∨
    ∃ s, (complete_current p).2 = modifyItem p s fun it => { it with status := .completed } := by
  cases hs : getCurrentSlot p with
  | none => left; rw [complete_current_of_none hs]
  | some s => right; exact ⟨s, by rw [complete_current_of_slot hs]⟩

theorem assemble_ownsItems (tpl : List (String × List String)) :
    ∀ ph ∈ assemble tpl, ∀ it ∈ ph.items, it.phase_id = ph.id := by
  intro ph hph it hit
  unfold assemble at hph
  obtain ⟨pr, hpr, rfl⟩ := List.mem_map.mp hph
  obtain ⟨ir, hir, rfl⟩ := List.mem_map.mp hit
  rfl

theorem phaseId_inj_small :
    ∀ a b : Nat, a < 5 → b < 5 →
      ("phase-" ++ toString a) = ("phase-" ++ toString b) → a = b := by
  intro a b ha hb h
  interval_cases a <;> interval_cases b <;> first
    | rfl
    | exact absurd h (by decide)

theorem assemble_ids_nodup (tpl : List (String × List String)) (hlen : tpl.length ≤ 5) :
    ((assemble tpl).map Phase.id).Nodup := by
  unfold assemble
  rw [List.map_map]
  have hfst : ((withIdx tpl).map Prod.fst).Nodup := nodup_map_fst_withIdxFrom 0 tpl
  have hnd : (withIdx tpl).Nodup := List.Nodup.of_map Prod.fst hfst
  refine List.Nodup.map_on ?_ hnd
  intro x hx y hy hxy
  simp only [Function.comp_apply] at hxy
  have hxb : x.1 < tpl.length := by
    have := getElem?_of_mem_withIdxFrom (l := tpl) (n := 0) (by simpa using hx)
    simp only [Nat.sub_zero] at this
    exact (List.getElem?_eq_some_iff.mp this.2).1
  have hyb : y.1 < tpl.length := by
    have := getElem?_of_mem_withIdxFrom (l := tpl) (n := 0) (by simpa using hy)
    simp only [Nat.sub_zero] at this
    exact (List.getElem?_eq_some_iff.mp this.2).1
  have hfst_eq : x.1 = y.1 :=
    phaseId_inj_small x.1 y.1 (lt_of_lt_of_le hxb hlen) (lt_of_lt_of_le hyb hlen) hxy
  exact nodup_map_eq hfst hx hy hfst_eq

theorem getPhaseTemplate_length_le (c : String) : (getPhaseTemplate c).length ≤ 5 := by
  unfold getPhaseTemplate
  split_ifs <;> decide

theorem length_filter_eq_one {α : Type} {l : List α} {a : α} {q : α → Bool}
    (hnd : l.Nodup) (hmem : a ∈ l.filter q) (hall : ∀ x ∈ l.filter q, x = a) :
    (l.filter q).length = 1 := by
  have hfnd : (l.filter q).Nodup := hnd.filter q
  cases hf : l.filter q with
  | nil => rw [hf] at hmem; cases hmem
  | cons b bs =>
    cases bs with
    | nil => rfl
    | cons c cs =>
      exfalso
      rw [hf] at hall hfnd
      have hb := hall b (by simp)
      have hc := hall c (by simp)
      have hnotin := (List.nodup_cons.mp hfnd).1
      exact hnotin (by rw [hb, ← hc]; simp)

/-- C10: every generated plan satisfies the phase back-reference invariant
(each item's `phase_id` is the id of the phase whose items list contains it)
with pairwise-distinct phase ids; complete_current and skip_current preserve
the back-reference property and never change the phase-id list (and the read
operations, being pure, trivially preserve everything); and under the
invariant the by-id lookups used by skip_current and get_current_phase match
exactly one phase — get_current_phase returns precisely the phase at the
current slot. -/
theorem phase_backref_invariant :
    (∀ (goal : String) (d : Duration) (wh : Nat),
      ownsItems (generate goal d wh) ∧ ((generate goal d wh).phases.map Phase.id).Nodup) ∧
    (∀ p : Plan, ownsItems p → ownsItems (complete_current p).2) ∧
    (∀ p : Plan, ownsItems p → ownsItems (skipPlan p)) ∧
    (∀ p : Plan, (complete_current p).2.phases.map Phase.id = p.phases.map Phase.id) ∧
    (∀ p : Plan, (skipPlan p).phases.map Phase.id = p.phases.map Phase.id) ∧
    (∀ p : Plan, WF p → ∀ it, get_current_item p = some it →
      (p.phases.filter fun q => q.id == it.phase_id).length = 1) ∧
    (∀ p : Plan, WF p → ∀ s, getCurrentSlot p = some s →
      ∃ ph, p.phases[s.1]? = some ph ∧ get_current_phase p = some ph) := by
  refine ⟨?_, ?_, ?_, ?_, ?_, ?_, ?_⟩
  · intro goal d wh
    refine ⟨fun ph hph it hit => assemble_ownsItems _ ph hph it hit, ?_⟩
    apply assemble_ids_nodup
    rw [adjustItems_length]
    exact getPhaseTemplate_length_le _
  · intro p h
    rcases complete_plan_cases p with hc | ⟨s, hc⟩ <;> rw [hc]
    · exact h
    · exact ownsItems_modifyItem s (fun it => rfl) h
  · intro p h
    rcases skipPlan_eq_cases p with hc | ⟨s, m, hc⟩ <;> rw [hc]
    · exact h
    · exact ownsItems_modifyItem s (fun it => rfl) h
  · intro p
    rcases complete_plan_cases p with hc | ⟨s, hc⟩ <;> rw [hc]
    exact phaseIds_modifyItem p s _
  · intro p
    rcases skipPlan_eq_cases p with hc | ⟨s, m, hc⟩ <;> rw [hc]
    exact phaseIds_modifyItem p s _
  · intro p hWF it hcur
    unfold get_current_item at hcur
    cases hs : getCurrentSlot p with
    | none => rw [hs] at hcur; cases hcur
    | some s =>
      rw [hs, Option.some_bind] at hcur
      obtain ⟨ph, hph, hiti⟩ := itemAt_eq_some.mp hcur
      have hmem : it ∈ ph.items := List.getElem?_mem hiti
      have hphmem : ph ∈ p.phases := List.getElem?_mem hph
      have hid : it.phase_id = ph.id := hWF.1 ph hphmem it hmem
      have hndphases : p.phases.Nodup := List.Nodup.of_map Phase.id hWF.2
      refine length_filter_eq_one (a := ph) hndphases ?_ ?_
      · rw [List.mem_filter]
        exact ⟨hphmem, by rw [hid]; simp⟩
      · intro x hx
        rw [List.mem_filter] at hx
        have hxid : x.id = ph.id := by
          rw [eq_of_beq hx.2, hid]
        exact nodup_map_eq hWF.2 hx.1 hphmem hxid
  · intro p hWF s hs
    obtain ⟨X, hX⟩ := itemAt_isSome_of_mem_slots (currentSlot_mem_slots hs)
    obtain ⟨ph, hph, hXi⟩ := itemAt_eq_some.mp hX
    refine ⟨ph, hph, ?_⟩
    unfold get_current_phase get_current_item
    rw [hs, Option.some_bind, hX, Option.some_bind]
    exact find_owning_phase hWF hph (List.getElem?_mem hXi)

/-- Witness for C10: a well-formed plan on which the by-id lookup finds
exactly one phase. -/
theorem phase_backref_invariant_witness :
    WF wPlan ∧ (wPlan.phases.filter fun q => q.id == "P1").length = 1 := by
  have h := phase_backref_invariant.2.2.2.2.2.1 wPlan (by decide)
    { id := "A", name := "a", phase_id := "P1", order := 0, status := .pending }
    (by decide)
  exact ⟨by decide, h⟩

/-! ## Temporal skip lemmas and claim C1 -/

theorem complete_step_keys (p : Plan) :
    phaseKeys (complete_current p).2 = phaseKeys p ∧
    ∀ i : Nat, ((complete_current p).2.phases[i]?).map itemKeys = (p.phases[i]?).map itemKeys := by
  rcases complete_plan_cases p with hc | ⟨s, hc⟩ <;> rw [hc]
  · exact ⟨rfl, fun i => rfl⟩
  · exact ⟨modifyItem_phaseKeys p s _, modifyItem_itemKeys p s _ fun it => rfl⟩

theorem completeN_succ (n : Nat) (p : Plan) :
    completeN (n + 1) p = completeN n (complete_current p).2 := rfl

theorem completeN_keys (n : Nat) (p : Plan) :
    phaseKeys (completeN n p) = phaseKeys p ∧
    ∀ i : Nat, ((completeN n p).phases[i]?).map itemKeys = (p.phases[i]?).map itemKeys := by
  induction n generalizing p with
  | zero => exact ⟨rfl, fun i => rfl⟩
  | succ n ih =>
    have h1 := complete_step_keys p
    have h2 := ih (complete_current p).2
    refine ⟨?_, fun i => ?_⟩
    · rw [completeN_succ, h2.1, h1.1]
    · rw [completeN_succ, h2.2 i, h1.2 i]

theorem completeN_statusAt (n : Nat) (p : Plan) (t : Nat × Nat) :
    statusAt (completeN n p) t = statusAt p t ∨
    statusAt (completeN n p) t = some .completed := by
  induction n generalizing p with
  | zero => left; rfl
  | succ n ih =>
    rcases ih (complete_current p).2 with h | h
    · rcases statusAt_complete_step p t with h' | ⟨h1, h2⟩
      · left; rw [completeN_succ, h, h']
      · right; rw [completeN_succ, h, h2]
    · right; rw [completeN_succ, h]

/-- After setting the current item's order to `m + 1` (with `m` an upper
bound of the phase's orders), that item's key is strictly greater than every
other key of its phase. -/
theorem skipped_key_strict_max {p : Plan} {s : Nat × Nat} {X : Item} {ph : Phase} {m : Int}
    (hph : p.phases[s.1]? = some ph) (hXi : ph.items[s.2]? = some X)
    (hbound : ∀ k ∈ itemKeys ph, k ≤ m) :
    ∃ phm, (modifyItem p s fun it => { it with order := m + 1 }).phases[s.1]? = some phm ∧
      (itemKeys phm)[s.2]? = some (m + 1) ∧
      (∀ j : Nat, j ≠ s.2 → ∀ k, (itemKeys phm)[j]? = some k → k < m + 1) ∧
      phm.items.length = ph.items.length := by
  have hphm : (modifyItem p s fun it => { it with order := m + 1 }).phases[s.1]?
      = some { ph with
          items := modifyIdx (fun it => { it with order := m + 1 }) s.2 ph.items } := by
    rw [modifyItem_phases, getElem?_modifyIdx, if_pos rfl, hph]
    rfl
  refine ⟨_, hphm, ?_, ?_, ?_⟩
  · show (List.map Item.order
      (modifyIdx (fun it => { it with order := m + 1 }) s.2 ph.items))[s.2]? = some (m + 1)
    rw [List.getElem?_map, getElem?_modifyIdx, if_pos rfl, hXi]
    rfl
  · intro j hj k hk
    have hk' : (List.map Item.order
        (modifyIdx (fun it => { it with order := m + 1 }) s.2 ph.items))[j]? = some k := hk
    rw [List.getElem?_map, getElem?_modifyIdx, if_neg hj] at hk'
    cases hy : ph.items[j]? with
    | none => rw [hy] at hk'; cases hk'
    | some y =>
      rw [hy] at hk'
      injection hk' with hk'
      have hym : y.order ≤ m :=
        hbound y.order (List.mem_map_of_mem Item.order (List.getElem?_mem hy))
      omega
  · show (modifyIdx (fun it => { it with order := m + 1 }) s.2 ph.items).length
      = ph.items.length
    exact modifyIdx_length _ s.2 ph.items

/-- C1 is refuted as stated (over all skip/complete sequences): in `c1Plan`,
A (order 0) is current and skipping it succeeds; B is the only other pending
item of the phase; a second `skip_current` (on B) also succeeds, after which
`get_current_item` returns A again even though B has never transitioned to
completed — it is still pending. -/
theorem skip_skip_returns_early :
    (get_current_item c1Plan).map Item.id = some "A" ∧
    skip_current c1Plan = some (true, c1Plan1) ∧
    skip_current c1Plan1 = some (true, c1Plan2) ∧
    (get_current_item c1Plan2).map Item.id = some "A" ∧
    (itemAt c1Plan2 (0, 1)).map Item.id = some "B" ∧
    statusAt c1Plan2 (0, 1) = some .pending := by
  refine ⟨?_, ?_, ?_, ?_, ?_, ?_⟩ <;> decide

/-- C1 (amended): after `skip_current` succeeds on the current item (at slot
`s`) of a well-formed plan, under any number of subsequent
`complete_current` operations — the property fails if further skips
intervene, see the counterexample — whenever the skipped item is current
again, every other item of its phase that was pending after the skip has
transitioned to completed. -/
theorem skip_blocks_until_phase_completed (p : Plan) (s : Nat × Nat) (X : Item) (p₀ : Plan)
    (hWF : WF p) (hs : getCurrentSlot p = some s) (hX : itemAt p s = some X)
    (hskip : skip_current p = some (true, p₀)) (n : Nat) (t : Nat × Nat)
    (hcur : getCurrentSlot (completeN n p₀) = some s)
    (ht1 : t.1 = s.1) (hts : t ≠ s) (htp : statusAt p₀ t = some .pending) :
    statusAt (completeN n p₀) t = some .completed := by
  obtain ⟨ph, m, hph, hmem, hm, hbound, hskip'⟩ := skip_current_success hWF hs hX
  rw [hskip'] at hskip
  injection hskip with hskip
  injection hskip with hb hp₀
  clear hb
  obtain ⟨ph', hph', hXi⟩ := itemAt_eq_some.mp hX
  rw [hph] at hph'
  injection hph' with hph'
  subst hph'
  obtain ⟨phm, hphm, hkeyS, hkeyMax, hlenm⟩ := skipped_key_strict_max hph hXi hbound
  rw [hp₀] at hphm
  -- the phase at s.1 after n completes has the same keys as in p₀
  have hkq := (completeN_keys n p₀).2 s.1
  rw [hphm] at hkq
  obtain ⟨phq, hphq, hkeys_eq⟩ : ∃ phq, (completeN n p₀).phases[s.1]? = some phq ∧
      itemKeys phq = itemKeys phm := by
    cases hq : (completeN n p₀).phases[s.1]? with
    | none => rw [hq] at hkq; cases hkq
    | some phq =>
      rw [hq] at hkq
      injection hkq with hkq
      exact ⟨phq, rfl, hkq⟩
  -- strict-max decomposition of the within-phase scan order
  have hkS' : (itemKeys phq)[s.2]? = some (m + 1) := by
    rw [hkeys_eq]
    exact hkeyS
  have hkM' : ∀ j k, j ≠ s.2 → (itemKeys phq)[j]? = some k → k < m + 1 := by
    intro j k hj hk
    refine hkeyMax j hj k ?_
    rw [← hkeys_eq]
    exact hk
  obtain ⟨u, hu_eq, hsu⟩ := sortedIdx_strictMax hkS' hkM'
  -- t's inner index is a valid, non-last position of that phase
  have hYex : ∃ Y, itemAt p₀ t = some Y := by
    unfold statusAt at htp
    cases hY : itemAt p₀ t with
    | none => rw [hY] at htp; cases htp
    | some Y => exact ⟨Y, rfl⟩
  obtain ⟨Y, hY⟩ := hYex
  obtain ⟨pht, hpht, hYi⟩ := itemAt_eq_some.mp hY
  rw [ht1] at hpht
  rw [hphm] at hpht
  injection hpht with hpht
  subst hpht
  have ht2len : t.2 < (itemKeys phq).length := by
    have h1 : t.2 < phm.items.length := (List.getElem?_eq_some_iff.mp hYi).1
    have h2 : (itemKeys phq).length = phm.items.length := by
      rw [hkeys_eq]
      exact List.length_map phm.items Item.order
    omega
  have ht2ne : t.2 ≠ s.2 := by
    intro h2
    exact hts (Prod.ext ht1 h2)
  have ht2u : t.2 ∈ u := by
    have := mem_sortedIdx.mpr ht2len
    rw [hu_eq] at this
    rcases List.mem_append.mp this with h | h
    · exact h
    · simp at h
      exact absurd h ht2ne
  -- decompose the full scan order around slot s
  have hs1len : s.1 ∈ sortedIdx (phaseKeys (completeN n p₀)) := by
    refine mem_sortedIdx.mpr ?_
    have := (List.getElem?_eq_some_iff.mp hphq).1
    unfold phaseKeys
    rw [List.length_map]
    exact this
  obtain ⟨o₁, o₂, ho⟩ := List.append_of_mem hs1len
  have hslots_q : slots (completeN n p₀)
      = (o₁.flatMap (slotBlock (completeN n p₀))
          ++ u.map fun ii => (s.1, ii))
        ++ s :: o₂.flatMap (slotBlock (completeN n p₀)) := by
    unfold slots
    rw [ho, List.flatMap_append, List.flatMap_cons]
    rw [slotBlock_of_phase hphq, hu_eq, List.map_append]
    have hpair : (List.map (fun ii => (s.1, ii)) [s.2]) = [s] := by
      simp
    rw [hpair]
    simp [List.append_assoc]
  obtain ⟨u', v', hsplit', hu', hps'⟩ := find?_eq_some_split hcur
  have hnd := slots_nodup (completeN n p₀)
  have heq12 : (o₁.flatMap (slotBlock (completeN n p₀)) ++ List.map (fun ii => (s.1, ii)) u)
      ++ s :: o₂.flatMap (slotBlock (completeN n p₀)) = u' ++ s :: v' := by
    rw [← hslots_q, ← hsplit']
  have hLu' := nodup_append_cons_inj (by rw [← hslots_q]; exact hnd) heq12
  -- t lies strictly before s in the scan order, so it is not pending
  have htmem : t ∈ u' := by
    rw [← hLu'.1]
    refine List.mem_append.mpr (Or.inr ?_)
    have : (s.1, t.2) ∈ List.map (fun ii => (s.1, ii)) u :=
      List.mem_map.mpr ⟨t.2, ht2u, rfl⟩
    have hteta : t = (s.1, t.2) := by
      rw [← ht1]
    rw [hteta]
    exact this
  have htfalse : pendingAt (completeN n p₀) t = false := hu' t htmem
  rcases completeN_statusAt n p₀ t with h | h
  · exfalso
    rw [htp] at h
    unfold pendingAt at htfalse
    rw [h] at htfalse
    simp at htfalse
  · exact h

/-- Witness for the amended C1: skip A in `wPlan`, complete B and C; A is
current again and B has transitioned to completed. -/
theorem skip_blocks_until_phase_completed_witness :
    getCurrentSlot (completeN 2 wPlan1) = some (0, 0) ∧
    statusAt (completeN 2 wPlan1) (0, 1) = some .completed := by
  have h := skip_blocks_until_phase_completed wPlan (0, 0)
    { id := "A", name := "a", phase_id := "P1", order := 0, status := .pending } wPlan1
    (by decide) (by decide) (by decide) (by decide) 2 (0, 1)
    (by decide) (by decide) (by decide) (by decide)
  exact ⟨by decide, h⟩

end Planner
